import Mathlib

set_option maxHeartbeats 1000000

/-!
Verification development for the scope/symbol-table subsystem
(flang/lib/Semantics/scope.cpp): nested lexical scopes, host association
and import directives, per-scope declared-type pools, derived-type
extension chains, source-range tracking, and equivalence-object ordering.
Each C++ member function used by a property is shallowly embedded as an
executable Lean definition; external collaborators (source management,
symbol arena, parent-type resolution) are modelled from the spec where
their code is outside this translation unit.
-/

namespace FlangScope

/-! ## Equivalence objects (scope.cpp lines 22-33) -/

/-- Modelled from the spec: an equivalence object is a triple of a symbol,
a subscript list and an optional substring start.  The symbol reference is
represented by its stable arena address (a natural number), because both
C++ comparison operators consult only the symbol's identity
(`&symbol` and `Symbol::operator==`). -/
structure EquivalenceObject where
  symbolAddr : Nat
  subscripts : List Int
  substringStart : Option Int
deriving DecidableEq

/-- Lexicographic comparison of subscript vectors, as performed by
`std::vector`'s `operator<`. -/
def listLtInt : List Int → List Int → Bool
  | _, [] => false
  | [], _ :: _ => true
  | a :: as, b :: bs => if a < b then true else if b < a then false else listLtInt as bs

/-- Comparison of `std::optional` substring starts: an empty optional
precedes every engaged one, engaged values compare by value. -/
def optLtInt : Option Int → Option Int → Bool
  | none, none => false
  | none, some _ => true
  | some _, none => false
  | some a, some b => a < b

/-- EquivalenceObject::operator< (scope.cpp:27-33): order primarily by
symbol address, then by subscript list, then by substring start. -/
def eqvObjLt (a b : EquivalenceObject) : Bool :=
  a.symbolAddr < b.symbolAddr ||
    (a.symbolAddr == b.symbolAddr &&
      (listLtInt a.subscripts b.subscripts ||
        (a.subscripts == b.subscripts &&
          optLtInt a.substringStart b.substringStart)))

/-- EquivalenceObject::operator== (scope.cpp:22-25): identical symbol
identity, subscripts and substring start. -/
def eqvObjEq (a b : EquivalenceObject) : Bool :=
  a.symbolAddr == b.symbolAddr && a.subscripts == b.subscripts &&
    a.substringStart == b.substringStart

lemma listLtInt_nil_right (a : List Int) : listLtInt a [] = false := by
  cases a <;> rfl

lemma listLtInt_cons (x y : Int) (xs ys : List Int) :
    listLtInt (x :: xs) (y :: ys) =
      (if x < y then true else if y < x then false else listLtInt xs ys) := rfl

lemma listLtInt_irrefl (a : List Int) : listLtInt a a = false := by
  induction a with
  | nil => rfl
  | cons x xs ih => rw [listLtInt_cons, if_neg (lt_irrefl x), if_neg (lt_irrefl x), ih]

lemma listLtInt_asymm (a b : List Int) (h : listLtInt a b = true) :
    listLtInt b a = false := by
  induction a generalizing b with
  | nil =>
    cases b with
    | nil => cases h
    | cons y ys => exact listLtInt_nil_right _
  | cons x xs ih =>
    cases b with
    | nil => rw [listLtInt_nil_right] at h; cases h
    | cons y ys =>
      rw [listLtInt_cons] at h ⊢
      split_ifs at h ⊢ <;>
        first
        | rfl
        | omega
        | (exact ih ys h)
        | (cases h)

lemma listLtInt_trans (a b c : List Int) (h1 : listLtInt a b = true)
    (h2 : listLtInt b c = true) : listLtInt a c = true := by
  induction a generalizing b c with
  | nil =>
    cases c with
    | nil => rw [listLtInt_nil_right] at h2; cases h2
    | cons z zs => rfl
  | cons x xs ih =>
    cases b with
    | nil => rw [listLtInt_nil_right] at h1; cases h1
    | cons y ys =>
      cases c with
      | nil => rw [listLtInt_nil_right] at h2; cases h2
      | cons z zs =>
        rw [listLtInt_cons] at h1 h2 ⊢
        split_ifs at h1 h2 ⊢ <;>
          first
          | rfl
          | omega
          | (exact ih ys zs h1 h2)
          | (cases h1)
          | (cases h2)

lemma listLtInt_total (a b : List Int) (h1 : listLtInt a b = false)
    (h2 : listLtInt b a = false) : a = b := by
  induction a generalizing b with
  | nil =>
    cases b with
    | nil => rfl
    | cons y ys => cases h1
  | cons x xs ih =>
    cases b with
    | nil => cases h2
    | cons y ys =>
      rw [listLtInt_cons] at h1 h2
      split_ifs at h1 h2 <;>
        first
        | omega
        | (cases h1)
        | (cases h2)
        | (have hxy : x = y := by omega
           rw [hxy, ih ys h1 h2])

lemma optLtInt_irrefl (a : Option Int) : optLtInt a a = false := by
  cases a with
  | none => rfl
  | some x => simp [optLtInt]

lemma optLtInt_asymm (a b : Option Int) (h : optLtInt a b = true) :
    optLtInt b a = false := by
  cases a <;> cases b <;> simp_all [optLtInt] <;> omega

lemma optLtInt_trans (a b c : Option Int) (h1 : optLtInt a b = true)
    (h2 : optLtInt b c = true) : optLtInt a c = true := by
  cases a <;> cases b <;> cases c <;> simp_all [optLtInt] <;> omega

lemma optLtInt_total (a b : Option Int) (h1 : optLtInt a b = false)
    (h2 : optLtInt b a = false) : a = b := by
  cases a <;> cases b <;> simp_all [optLtInt] <;> omega

/-- Propositional unfolding of the less-than comparison. -/
def eqvLtP (a b : EquivalenceObject) : Prop :=
  a.symbolAddr < b.symbolAddr ∨
    (a.symbolAddr = b.symbolAddr ∧
      (listLtInt a.subscripts b.subscripts = true ∨
        (a.subscripts = b.subscripts ∧
          optLtInt a.substringStart b.substringStart = true)))

lemma eqvObjLt_iff (a b : EquivalenceObject) : eqvObjLt a b = true ↔ eqvLtP a b := by
  simp [eqvObjLt, eqvLtP]

lemma eqvObjLt_false_iff (a b : EquivalenceObject) :
    eqvObjLt a b = false ↔ ¬ eqvLtP a b := by
  rw [← eqvObjLt_iff]
  cases eqvObjLt a b <;> simp

lemma eqvObjEq_iff (a b : EquivalenceObject) : eqvObjEq a b = true ↔ a = b := by
  obtain ⟨a1, a2, a3⟩ := a
  obtain ⟨b1, b2, b3⟩ := b
  simp [eqvObjEq, and_assoc]

lemma eqvLtP_asymm {a b : EquivalenceObject} (h : eqvLtP a b) : ¬ eqvLtP b a := by
  rcases h with h | ⟨hs, h⟩
  · rintro (h2 | ⟨hs2, _⟩) <;> omega
  · rcases h with hl | ⟨hsub, ho⟩
    · rintro (h2 | ⟨hs2, h2 | ⟨hsub2, ho2⟩⟩)
      · omega
      · rw [listLtInt_asymm _ _ hl] at h2; cases h2
      · rw [hsub2, listLtInt_irrefl] at hl; cases hl
    · rintro (h2 | ⟨hs2, h2 | ⟨hsub2, ho2⟩⟩)
      · omega
      · rw [← hsub, listLtInt_irrefl] at h2; cases h2
      · rw [optLtInt_asymm _ _ ho] at ho2; cases ho2

lemma eqvLtP_trans {a b c : EquivalenceObject} (h1 : eqvLtP a b) (h2 : eqvLtP b c) :
    eqvLtP a c := by
  rcases h1 with h1 | ⟨hs1, h1⟩
  · rcases h2 with h2 | ⟨hs2, h2⟩
    · exact Or.inl (by omega)
    · exact Or.inl (by omega)
  · rcases h2 with h2 | ⟨hs2, h2⟩
    · exact Or.inl (by omega)
    · refine Or.inr ⟨by omega, ?_⟩
      rcases h1 with h1 | ⟨hsub1, h1⟩
      · rcases h2 with h2 | ⟨hsub2, h2⟩
        · exact Or.inl (listLtInt_trans _ _ _ h1 h2)
        · exact Or.inl (hsub2 ▸ h1)
      · rcases h2 with h2 | ⟨hsub2, h2⟩
        · exact Or.inl (hsub1 ▸ h2)
        · exact Or.inr ⟨hsub1.trans hsub2, optLtInt_trans _ _ _ h1 h2⟩

lemma eqv_incomp_eq {a b : EquivalenceObject} (h1 : ¬ eqvLtP a b)
    (h2 : ¬ eqvLtP b a) : a = b := by
  obtain ⟨h1a, h1b⟩ := not_or.mp h1
  obtain ⟨h2a, h2b⟩ := not_or.mp h2
  have hs : a.symbolAddr = b.symbolAddr := by omega
  have hl1 : listLtInt a.subscripts b.subscripts = false := by
    cases hx : listLtInt a.subscripts b.subscripts
    · rfl
    · exact absurd ⟨hs, Or.inl hx⟩ h1b
  have hl2 : listLtInt b.subscripts a.subscripts = false := by
    cases hx : listLtInt b.subscripts a.subscripts
    · rfl
    · exact absurd ⟨hs.symm, Or.inl hx⟩ h2b
  have hsub : a.subscripts = b.subscripts := listLtInt_total _ _ hl1 hl2
  have ho1 : optLtInt a.substringStart b.substringStart = false := by
    cases hx : optLtInt a.substringStart b.substringStart
    · rfl
    · exact absurd ⟨hs, Or.inr ⟨hsub, hx⟩⟩ h1b
  have ho2 : optLtInt b.substringStart a.substringStart = false := by
    cases hx : optLtInt b.substringStart a.substringStart
    · rfl
    · exact absurd ⟨hs.symm, Or.inr ⟨hsub.symm, hx⟩⟩ h2b
  have hss : a.substringStart = b.substringStart := optLtInt_total _ _ ho1 ho2
  obtain ⟨a1, a2, a3⟩ := a
  obtain ⟨b1, b2, b3⟩ := b
  simp only at hs hsub hss
  rw [hs, hsub, hss]

lemma eqvLtP_irrefl (a : EquivalenceObject) : ¬ eqvLtP a a := by
  rintro (h | ⟨_, h | ⟨_, h⟩⟩)
  · omega
  · rw [listLtInt_irrefl] at h; cases h
  · rw [optLtInt_irrefl] at h; cases h

/-- C8: the equivalence-object less-than comparison is a strict weak
ordering — irreflexive, asymmetric, transitive, with transitive
incomparability — ordered primarily by symbol identity, then subscript
list, then substring start; its incomparability relation coincides with
the equality operator.  Determinism across repeated invocations within a
run holds because the comparison is a pure function of its arguments. -/
theorem c8_eqvObjLt_strict_weak_order (a b c : EquivalenceObject) :
    eqvObjLt a a = false ∧
    (eqvObjLt a b = true → eqvObjLt b a = false) ∧
    (eqvObjLt a b = true → eqvObjLt b c = true → eqvObjLt a c = true) ∧
    ((eqvObjLt a b = false ∧ eqvObjLt b a = false) →
      (eqvObjLt b c = false ∧ eqvObjLt c b = false) →
      (eqvObjLt a c = false ∧ eqvObjLt c a = false)) ∧
    ((eqvObjLt a b = false ∧ eqvObjLt b a = false) ↔ eqvObjEq a b = true) := by
  refine ⟨?_, ?_, ?_, ?_, ?_⟩
  · rw [eqvObjLt_false_iff]
    exact eqvLtP_irrefl a
  · intro h
    rw [eqvObjLt_iff] at h
    rw [eqvObjLt_false_iff]
    exact eqvLtP_asymm h
  · intro h1 h2
    rw [eqvObjLt_iff] at h1 h2 ⊢
    exact eqvLtP_trans h1 h2
  · intro hab hbc
    simp only [eqvObjLt_false_iff] at hab hbc ⊢
    have e1 : a = b := eqv_incomp_eq hab.1 hab.2
    have e2 : b = c := eqv_incomp_eq hbc.1 hbc.2
    subst e1; subst e2
    exact ⟨eqvLtP_irrefl a, eqvLtP_irrefl a⟩
  · rw [eqvObjLt_false_iff, eqvObjLt_false_iff, eqvObjEq_iff]
    constructor
    · rintro ⟨h1, h2⟩
      exact eqv_incomp_eq h1 h2
    · rintro rfl
      exact ⟨eqvLtP_irrefl a, eqvLtP_irrefl a⟩

/-- Witness for C8 at concrete equivalence objects. -/
theorem c8_witness :
    eqvObjLt ⟨2, [1], none⟩ ⟨1, [], some 3⟩ = false ∧
    eqvObjLt ⟨1, [1], none⟩ ⟨1, [2], none⟩ = true ∧
    eqvObjEq ⟨1, [1], some 4⟩ ⟨1, [1], some 4⟩ = true := by
  refine ⟨?_, ?_, ?_⟩
  · exact (c8_eqvObjLt_strict_weak_order ⟨1, [], some 3⟩ ⟨2, [1], none⟩
      ⟨2, [1], none⟩).2.1 (by decide)
  · exact (c8_eqvObjLt_strict_weak_order ⟨1, [1], none⟩ ⟨1, [1], some 0⟩
      ⟨1, [2], none⟩).2.2.1 (by decide) (by decide)
  · exact ((c8_eqvObjLt_strict_weak_order ⟨1, [1], some 4⟩ ⟨1, [1], some 4⟩
      ⟨1, [1], some 4⟩).2.2.2.2).mp ⟨by decide, by decide⟩

/-! ## Declared-type pool (scope.cpp lines 173-207) -/

/-- Modelled from the spec: type categories of the numeric/character
classification used by the declared-type descriptors. -/
inductive TypeCategory
  | Integer
  | Unsigned
  | Real
  | Complex
  | Character
  | Logical
  | Derived
deriving DecidableEq

/-- Modelled from the spec: a character length parameter value, which may
embed a declaration-specific expression (here a numbered expression), or
be assumed or deferred. -/
inductive ParamValue
  | expr (e : Nat)
  | assumed
  | deferred
deriving DecidableEq

/-- Modelled from the spec: a derived-type specialization, identified by
its type name and its parameter arguments. -/
structure DerivedTypeSpec where
  typeName : String
  args : List Nat
deriving DecidableEq

/-- Modelled from the spec: the tagged variant of declared-type
descriptors over numeric, logical, character, type-star, class-star and
derived (Type or Class) types; equality is structural, matching the
`DeclTypeSpec::operator==` used by `FindType`. -/
inductive DeclTypeSpec
  | Numeric (category : TypeCategory) (kind : Nat)
  | Logical (kind : Nat)
  | Character (length : ParamValue) (kind : Nat)
  | TypeStar
  | ClassStar
  | TypeDerived (spec : DerivedTypeSpec)
  | ClassDerived (spec : DerivedTypeSpec)
deriving DecidableEq

/-- Scope::FindType (scope.cpp:173-176): linear scan of the pool for a
structurally equal entry; the pooled entry's identity is its position. -/
def FindType : List DeclTypeSpec → DeclTypeSpec → Option Nat
  | [], _ => none
  | x :: xs, t => if x = t then some 0 else (FindType xs t).map (· + 1)

/-- Scope::MakeLengthlessType (scope.cpp:193-196): return the existing
structurally equal pool entry, or append the type as a fresh entry.  The
result is the entry's pool position together with the updated pool. -/
def MakeLengthlessType (pool : List DeclTypeSpec) (t : DeclTypeSpec) :
    Nat × List DeclTypeSpec :=
  match FindType pool t with
  | some i => (i, pool)
  | none => (pool.length, pool ++ [t])

/-- Scope::MakeNumericType (scope.cpp:178-181). -/
def MakeNumericType (pool : List DeclTypeSpec) (category : TypeCategory)
    (kind : Nat) : Nat × List DeclTypeSpec :=
  MakeLengthlessType pool (.Numeric category kind)

/-- Scope::MakeLogicalType (scope.cpp:182-184). -/
def MakeLogicalType (pool : List DeclTypeSpec) (kind : Nat) :
    Nat × List DeclTypeSpec :=
  MakeLengthlessType pool (.Logical kind)

/-- Scope::MakeTypeStarType (scope.cpp:185-187). -/
def MakeTypeStarType (pool : List DeclTypeSpec) : Nat × List DeclTypeSpec :=
  MakeLengthlessType pool .TypeStar

/-- Scope::MakeClassStarType (scope.cpp:188-190). -/
def MakeClassStarType (pool : List DeclTypeSpec) : Nat × List DeclTypeSpec :=
  MakeLengthlessType pool .ClassStar

/-- Scope::MakeCharacterType (scope.cpp:198-202): always append a fresh
entry, with no pool search. -/
def MakeCharacterType (pool : List DeclTypeSpec) (length : ParamValue)
    (kind : Nat) : Nat × List DeclTypeSpec :=
  (pool.length, pool ++ [.Character length kind])

/-- Scope::MakeDerivedType (scope.cpp:204-207): always append a fresh
entry wrapping the derived-type specialization, with no pool search. -/
def MakeDerivedType (pool : List DeclTypeSpec) (isClass : Bool)
    (spec : DerivedTypeSpec) : Nat × List DeclTypeSpec :=
  (pool.length, pool ++ [if isClass then .ClassDerived spec else .TypeDerived spec])

lemma FindType_append_self (pool : List DeclTypeSpec) (t : DeclTypeSpec)
    (h : FindType pool t = none) : FindType (pool ++ [t]) t = some pool.length := by
  induction pool with
  | nil => simp [FindType]
  | cons x xs ih =>
    simp only [FindType] at h
    by_cases hx : x = t
    · rw [if_pos hx] at h; cases h
    · rw [if_neg hx] at h
      have hnone : FindType xs t = none := by
        cases hfind : FindType xs t
        · rfl
        · rw [hfind] at h; cases h
      simp [FindType, if_neg hx, ih hnone]

lemma MakeLengthlessType_idem (pool : List DeclTypeSpec) (t : DeclTypeSpec) :
    MakeLengthlessType (MakeLengthlessType pool t).2 t =
      ((MakeLengthlessType pool t).1, (MakeLengthlessType pool t).2) := by
  cases hfind : FindType pool t with
  | some i => simp [MakeLengthlessType, hfind]
  | none => simp [MakeLengthlessType, hfind, FindType_append_self pool t hfind]

/-- C4: within one scope's type pool, the lengthless constructors are
deduplicating — a second call with structurally equal arguments returns
the identical pooled entry and leaves the pool unchanged — whereas
MakeCharacterType and MakeDerivedType always append and return a fresh
pool entry on every call, even for identical inputs. -/
theorem c4_type_pool_dedup (pool : List DeclTypeSpec) (category : TypeCategory)
    (kind : Nat) (len : ParamValue) (ckind : Nat) (isClass : Bool)
    (dspec : DerivedTypeSpec) :
    (MakeNumericType (MakeNumericType pool category kind).2 category kind =
      MakeNumericType pool category kind) ∧
    (MakeLogicalType (MakeLogicalType pool kind).2 kind =
      MakeLogicalType pool kind) ∧
    (MakeTypeStarType (MakeTypeStarType pool).2 = MakeTypeStarType pool) ∧
    (MakeClassStarType (MakeClassStarType pool).2 = MakeClassStarType pool) ∧
    (MakeCharacterType pool len ckind =
      (pool.length, pool ++ [.Character len ckind])) ∧
    ((MakeCharacterType (MakeCharacterType pool len ckind).2 len ckind).1 ≠
      (MakeCharacterType pool len ckind).1) ∧
    ((MakeDerivedType (MakeDerivedType pool isClass dspec).2 isClass dspec).1 ≠
      (MakeDerivedType pool isClass dspec).1) := by
  refine ⟨?_, ?_, ?_, ?_, rfl, ?_, ?_⟩
  · exact MakeLengthlessType_idem pool _
  · exact MakeLengthlessType_idem pool _
  · exact MakeLengthlessType_idem pool _
  · exact MakeLengthlessType_idem pool _
  · simp [MakeCharacterType]
  · simp [MakeDerivedType]

/-! ## Scope tree data model -/

/-- Modelled from the spec: the kinds of scopes (global, intrinsic
modules, module — a submodule is a module scope whose introducing symbol
carries submodule module details — main program, subprogram, derived
type, block construct). -/
inductive ScopeKind
  | Global
  | IntrinsicModules
  | Module
  | MainProgram
  | Subprogram
  | DerivedType
  | BlockConstruct
deriving DecidableEq

/-- Modelled from the spec: the import-directive kinds. -/
inductive ImportKind
  | Default
  | Only
  | None
  | All
deriving DecidableEq

/-- Modelled from the spec: the type-parameter flavors. -/
inductive TypeParamAttr
  | Kind
  | Len
deriving DecidableEq

/-- Modelled from the spec: the symbol details payloads consumed by this
subsystem through identity/kind/flag contracts: subprogram details with an
interface-body marker, module details with a submodule marker and the
declared parent module scope, type-parameter details with a flavor, and
an opaque remainder. -/
inductive SymDetails
  | subprogramDetails (isInterfaceBody : Bool)
  | moduleDetails (isSubmoduleFlag : Bool) (parentModule : Option Nat)
  | typeParamDetails (attr : TypeParamAttr)
  | otherDetails
deriving DecidableEq

/-- Modelled from the spec: a symbol carries a stable arena identity, a
name, an attribute set (only the MODULE attribute is consulted here) and
a details payload. -/
structure Sym where
  sid : Nat
  symName : String
  moduleAttr : Bool
  details : SymDetails
deriving DecidableEq

/-- Modelled from the spec: one scope node — kind, non-owning parent
index, optional introducing symbol, symbol table, import-directive state,
and the derived-type extension parent (the scope of the parent type
declared by the introducing symbol, resolved by the external symbol or
type collaborator). -/
structure ScopeNode where
  kind : ScopeKind
  parent : Nat
  symbol : Option Sym
  symbols : List (String × Sym)
  importKind : Option ImportKind
  importNames : List String
  derivedTypeParent : Option Nat
  submodules : List (String × Nat)
deriving DecidableEq

/-- Default node standing for an index outside the tree: an inert global
scope. -/
def defaultNode : ScopeNode :=
  ⟨.Global, 0, none, [], none, [], none, []⟩

/-- A scope tree is the arena of scope nodes, indexed by position; node 0
is the top-level global scope and every other node's parent precedes it. -/
abbrev ScopeTree := List ScopeNode

def getScope (t : ScopeTree) (i : Nat) : ScopeNode := (t.get? i).getD defaultNode

/-- Scope::IsTopLevel: a global or intrinsic-modules scope. -/
def IsTopLevel (s : ScopeNode) : Bool :=
  s.kind == .Global || s.kind == .IntrinsicModules

/-- Scope::IsSubmodule: a module scope whose introducing symbol's module
details carry the submodule flag. -/
def IsSubmodule (s : ScopeNode) : Bool :=
  s.kind == .Module &&
    match s.symbol with
    | some sym =>
      match sym.details with
      | .moduleDetails isSub _ => isSub
      | _ => false
    | none => false

/-- The declared parent module/submodule of a submodule scope, read from
the introducing symbol's module details (scope.cpp:93). -/
def moduleParentOf (s : ScopeNode) : Option Nat :=
  match s.symbol with
  | some sym =>
    match sym.details with
    | .moduleDetails _ p => p
    | _ => none
  | none => none

/-- Scope::IsDerivedType. -/
def IsDerivedType (s : ScopeNode) : Bool := s.kind == .DerivedType

/-- Lookup of a name in one scope's symbol table (Scope::find). -/
def findInTable (table : List (String × Sym)) (name : String) : Option Sym :=
  match table with
  | [] => none
  | (n, sym) :: rest => if n = name then some sym else findInTable rest name

/-- Scope::GetImportKind (scope.cpp:253-265): the explicitly recorded
kind when present; otherwise None for the interface body of a subprogram
whose symbol lacks the MODULE attribute, else Default. -/
def GetImportKind (s : ScopeNode) : ImportKind :=
  match s.importKind with
  | some k => k
  | none =>
    match s.symbol with
    | some sym =>
      if !sym.moduleAttr then
        match sym.details with
        | .subprogramDetails isInterfaceBody =>
          if isInterfaceBody then .None else .Default
        | _ => .Default
      else .Default
    | none => .Default

/-- Scope::SetImportKind (scope.cpp:267-285): the first call records the
kind; later calls are validated against the existing kind and return an
optional error-message text, leaving the recorded kind unchanged. -/
def SetImportKind (s : ScopeNode) (kind : ImportKind) : Option String × ScopeNode :=
  match s.importKind with
  | none => (none, { s with importKind := some kind })
  | some old =>
    let hasNone := kind == .None || old == .None
    let hasAll := kind == .All || old == .All
    if hasNone || hasAll then
      (some (if hasNone then
          "IMPORT,NONE must be the only IMPORT statement in a scope"
        else
          "IMPORT,ALL must be the only IMPORT statement in a scope"), s)
    else if kind != old && (kind != .Only && old != .Only) then
      (some "Every IMPORT must have ONLY specifier if one of them does", s)
    else (none, s)

/-- Scope::add_importName (scope.cpp:287-289): insert into the set of
explicitly imported names. -/
def addImportName (s : ScopeNode) (name : String) : ScopeNode :=
  if s.importNames.contains name then s
  else { s with importNames := name :: s.importNames }

/-- Scope::CanImport (scope.cpp:292-306): false at or directly below the
top level; otherwise dispatch on the resolved import kind. -/
def CanImport (t : ScopeTree) (i : Nat) (name : String) : Bool :=
  if IsTopLevel (getScope t i) || IsTopLevel (getScope t (getScope t i).parent) then
    false
  else
    match GetImportKind (getScope t i) with
    | .None => false
    | .All => true
    | .Default => true
    | .Only => (getScope t i).importNames.contains name

/-- Scope::FindSymbol (scope.cpp:88-100), fuel-indexed: look up the name
in this scope's table; on a miss a submodule delegates to its declared
parent module/submodule, any other scope delegates to the lexical parent
when CanImport holds, else the lookup fails. -/
def findSymbolF (t : ScopeTree) : Nat → Nat → String → Option Sym
  | 0, _, _ => none
  | fuel + 1, i, name =>
    match findInTable (getScope t i).symbols name with
    | some sym => some sym
    | none =>
      if IsSubmodule (getScope t i) then
        match moduleParentOf (getScope t i) with
        | some p => findSymbolF t fuel p name
        | none => none
      else if CanImport t i name then
        findSymbolF t fuel (getScope t i).parent name
      else none

def FindSymbol (t : ScopeTree) (i : Nat) (name : String) : Option Sym :=
  findSymbolF t (i + 1) i name

/-- Well-formedness of a scope tree: every non-top-level node's lexical
parent strictly precedes it, as do a submodule's declared parent module
and a derived-type scope's extension parent.  This reflects the arena
construction order: a child scope is created after its parent. -/
def wfB (t : ScopeTree) : Bool :=
  (List.range t.length).all fun i =>
    let s := getScope t i
    (IsTopLevel s || decide (s.parent < i)) &&
      (match moduleParentOf s with
       | some p => decide (p < i)
       | none => true) &&
      (match s.derivedTypeParent with
       | some p => decide (p < i)
       | none => true)

lemma default_isTopLevel : IsTopLevel defaultNode = true := rfl

lemma getScope_out_of_range (t : ScopeTree) (i : Nat) (h : t.length ≤ i) :
    getScope t i = defaultNode := by
  simp [getScope, List.getElem?_eq_none h]

lemma wf_parent_lt (t : ScopeTree) (hwf : wfB t = true) (i : Nat)
    (h : IsTopLevel (getScope t i) = false) : (getScope t i).parent < i := by
  by_cases hi : i < t.length
  · have := List.all_eq_true.mp hwf i (List.mem_range.mpr hi)
    simp only [Bool.and_eq_true, Bool.or_eq_true, decide_eq_true_eq] at this
    rcases this.1.1 with htop | hlt
    · rw [h] at htop; cases htop
    · exact hlt
  · rw [getScope_out_of_range t i (by omega)] at h
    cases h

lemma wf_moduleParent_lt (t : ScopeTree) (hwf : wfB t = true) (i p : Nat)
    (h : moduleParentOf (getScope t i) = some p) : p < i := by
  by_cases hi : i < t.length
  · have := List.all_eq_true.mp hwf i (List.mem_range.mpr hi)
    simp only [Bool.and_eq_true, Bool.or_eq_true, decide_eq_true_eq] at this
    have h2 := this.1.2
    rw [h] at h2
    simpa using h2
  · rw [getScope_out_of_range t i (by omega)] at h
    cases h

lemma wf_dtParent_lt (t : ScopeTree) (hwf : wfB t = true) (i p : Nat)
    (h : (getScope t i).derivedTypeParent = some p) : p < i := by
  by_cases hi : i < t.length
  · have := List.all_eq_true.mp hwf i (List.mem_range.mpr hi)
    simp only [Bool.and_eq_true, Bool.or_eq_true, decide_eq_true_eq] at this
    have h2 := this.2
    rw [h] at h2
    simpa using h2
  · rw [getScope_out_of_range t i (by omega)] at h
    cases h

/-! ## Name resolution theorems (C1, C3, C6) -/

lemma canImport_not_topLevel (t : ScopeTree) (i : Nat) (name : String)
    (h : CanImport t i name = true) : IsTopLevel (getScope t i) = false := by
  cases htop : IsTopLevel (getScope t i)
  · rfl
  · rw [CanImport, htop] at h
    simp at h

lemma findSymbolF_congr (t : ScopeTree) (hwf : wfB t = true) :
    ∀ i f f', i < f → i < f' → ∀ name,
      findSymbolF t f i name = findSymbolF t f' i name := by
  intro i
  induction i using Nat.strong_induction_on with
  | _ i ih =>
    intro f f' hf hf' name
    match f, f' with
    | fa + 1, fb + 1 =>
      simp only [findSymbolF]
      cases hfind : findInTable (getScope t i).symbols name with
      | some sym => rfl
      | none =>
        by_cases hsub : IsSubmodule (getScope t i)
        · rw [if_pos hsub, if_pos hsub]
          cases hmp : moduleParentOf (getScope t i) with
          | none => rfl
          | some p =>
            have hp : p < i := wf_moduleParent_lt t hwf i p hmp
            exact ih p hp fa fb (by omega) (by omega) name
        · rw [if_neg hsub, if_neg hsub]
          by_cases hci : CanImport t i name
          · rw [if_pos hci, if_pos hci]
            have htop := canImport_not_topLevel t i name hci
            have hp : (getScope t i).parent < i := wf_parent_lt t hwf i htop
            exact ih _ hp fa fb (by omega) (by omega) name
          · rw [if_neg hci, if_neg hci]

/-- Unfolding law for FindSymbol on a well-formed tree. -/
lemma FindSymbol_unfold (t : ScopeTree) (hwf : wfB t = true) (i : Nat)
    (name : String) :
    FindSymbol t i name =
      match findInTable (getScope t i).symbols name with
      | some sym => some sym
      | none =>
        if IsSubmodule (getScope t i) then
          match moduleParentOf (getScope t i) with
          | some p => FindSymbol t p name
          | none => none
        else if CanImport t i name then
          FindSymbol t (getScope t i).parent name
        else none := by
  rw [FindSymbol]
  simp only [findSymbolF]
  cases hfind : findInTable (getScope t i).symbols name with
  | some sym => rfl
  | none =>
    by_cases hsub : IsSubmodule (getScope t i)
    · rw [if_pos hsub, if_pos hsub]
      cases hmp : moduleParentOf (getScope t i) with
      | none => rfl
      | some p =>
        have hp : p < i := wf_moduleParent_lt t hwf i p hmp
        exact findSymbolF_congr t hwf p i (p + 1) (by omega) (by omega) name
    · rw [if_neg hsub, if_neg hsub]
      by_cases hci : CanImport t i name
      · rw [if_pos hci, if_pos hci]
        have htop := canImport_not_topLevel t i name hci
        have hp : (getScope t i).parent < i := wf_parent_lt t hwf i htop
        exact findSymbolF_congr t hwf _ i _ (by omega) (by omega) name
      · rw [if_neg hci, if_neg hci]

/-- Concrete nesting for the C1 example: global ⊃ A ⊃ B ⊃ C with `x`
declared only in A and no explicit import directives. -/
def symX : Sym := ⟨100, "x", false, .otherDetails⟩

def exampleNest : ScopeTree :=
  [⟨.Global, 0, none, [], none, [], none, []⟩,
   ⟨.Subprogram, 0, none, [("x", symX)], none, [], none, []⟩,
   ⟨.Subprogram, 1, none, [], none, [], none, []⟩,
   ⟨.Subprogram, 2, none, [], none, [], none, []⟩]

/-- The same nesting with import kind None recorded on B. -/
def exampleNestNoneB : ScopeTree :=
  [⟨.Global, 0, none, [], none, [], none, []⟩,
   ⟨.Subprogram, 0, none, [("x", symX)], none, [], none, []⟩,
   ⟨.Subprogram, 1, none, [], some .None, [], none, []⟩,
   ⟨.Subprogram, 2, none, [], none, [], none, []⟩]

/-- C1: FindSymbol returns the own-table entry when present; when absent
a submodule delegates to its declared parent module/submodule (the module
hierarchy), any other scope delegates to the lexical parent exactly when
CanImport holds, else the lookup reports not-found; and since CanImport
is re-evaluated at every scope of the walk, in the nesting
global ⊃ A ⊃ B ⊃ C with `x` declared only in A and default imports,
FindSymbol "x" from C returns A's `x`, while recording import kind None
on B makes the same lookup from C return not-found. -/
theorem c1_findSymbol (t : ScopeTree) (hwf : wfB t = true) (i : Nat)
    (name : String) :
    (FindSymbol t i name =
      match findInTable (getScope t i).symbols name with
      | some sym => some sym
      | none =>
        if IsSubmodule (getScope t i) then
          match moduleParentOf (getScope t i) with
          | some p => FindSymbol t p name
          | none => none
        else if CanImport t i name then
          FindSymbol t (getScope t i).parent name
        else none) ∧
    FindSymbol exampleNest 3 "x" = some symX ∧
    FindSymbol exampleNestNoneB 3 "x" = none := by
  refine ⟨FindSymbol_unfold t hwf i name, by decide, by decide⟩

/-- Witness for C1 on a concrete well-formed tree. -/
theorem c1_witness :
    FindSymbol exampleNest 3 "x" = some symX ∧
    FindSymbol exampleNestNoneB 3 "x" = none :=
  ⟨(c1_findSymbol exampleNest (by decide) 3 "x").2.1,
   (c1_findSymbol exampleNestNoneB (by decide) 3 "x").2.2⟩

/-- Description of GetImportKind following the claim: the explicitly set
kind when recorded, otherwise None exactly when the introducing symbol
exists, lacks the MODULE attribute and carries subprogram details marked
as an interface body, else Default. -/
def getImportKindDescribed (s : ScopeNode) : ImportKind :=
  match s.importKind with
  | some k => k
  | none =>
    if (match s.symbol with
        | some sym =>
          !sym.moduleAttr &&
            (match sym.details with
             | .subprogramDetails isInterfaceBody => isInterfaceBody
             | _ => false)
        | none => false) then
      .None
    else .Default

/-- C6: GetImportKind returns the explicitly set import kind when one has
been recorded; otherwise it returns None exactly when the scope's
introducing symbol exists, lacks the MODULE attribute, and carries
subprogram details marked as an interface body; in every other case it
returns Default. -/
theorem c6_getImportKind (s : ScopeNode) :
    GetImportKind s = getImportKindDescribed s := by
  rw [GetImportKind, getImportKindDescribed]
  cases s.importKind with
  | some k => rfl
  | none =>
    cases hs : s.symbol with
    | none => rfl
    | some sym =>
      cases hm : sym.moduleAttr with
      | true => simp [hm]
      | false =>
        cases hd : sym.details with
        | subprogramDetails ib => cases ib <;> simp [hm, hd]
        | moduleDetails a b => simp [hm, hd]
        | typeParamDetails a => simp [hm, hd]
        | otherDetails => simp [hm, hd]

/-- Description of SetImportKind following the claim's ordered clauses:
record on first call; then the sole-IMPORT error (None message if None is
involved, All message otherwise) whenever the existing or the new kind is
None or All; then the ONLY error when the kinds differ and neither is
Only; otherwise success with no state change. -/
def setImportKindDescribed (s : ScopeNode) (kind : ImportKind) :
    Option String × ScopeNode :=
  match s.importKind with
  | none => (none, { s with importKind := some kind })
  | some old =>
    if kind = .None ∨ old = .None then
      (some "IMPORT,NONE must be the only IMPORT statement in a scope", s)
    else if kind = .All ∨ old = .All then
      (some "IMPORT,ALL must be the only IMPORT statement in a scope", s)
    else if kind ≠ old ∧ kind ≠ .Only ∧ old ≠ .Only then
      (some "Every IMPORT must have ONLY specifier if one of them does", s)
    else (none, s)

/-- Concrete scope used by the C3 example: a subprogram nested inside a
module so that host association is possible. -/
def emptyImportScope : ScopeNode := ⟨.Subprogram, 1, none, [], none, [], none, []⟩

/-- The C3 example scope after SetImportKind Only, add_importName "a",
SetImportKind Only again, add_importName "b". -/
def onlyABScope : ScopeNode :=
  addImportName
    ((SetImportKind
        (addImportName ((SetImportKind emptyImportScope .Only).2) "a")
        .Only).2)
    "b"

def onlyABTree : ScopeTree :=
  [⟨.Global, 0, none, [], none, [], none, []⟩,
   ⟨.Module, 0, none, [], none, [], none, []⟩,
   onlyABScope]

/-- C3: the first SetImportKind call records the kind and returns no
error; a later call returns the sole-IMPORT error (the message naming
None or All according to which kind is involved) whenever the existing or
the new kind is None or All, returns the ONLY error when the kinds differ
and neither is Only, and otherwise succeeds; in particular SetImportKind
Only twice succeeds, and with add_importName the named sets accumulate so
that both names become importable via CanImport. -/
theorem c3_setImportKind (s : ScopeNode) (kind : ImportKind) :
    SetImportKind s kind = setImportKindDescribed s kind ∧
    (SetImportKind ((SetImportKind emptyImportScope .All).2) .Only).1 =
      some "IMPORT,ALL must be the only IMPORT statement in a scope" ∧
    (SetImportKind
        (addImportName ((SetImportKind emptyImportScope .Only).2) "a")
        .Only).1 = none ∧
    CanImport onlyABTree 2 "a" = true ∧
    CanImport onlyABTree 2 "b" = true := by
  refine ⟨?_, by decide, by decide, by decide, by decide⟩
  rw [SetImportKind, setImportKindDescribed]
  cases s.importKind with
  | none => rfl
  | some old =>
    cases kind <;> cases old <;> simp

/-! ## Derived-type extension chains (C7, C9) -/

/-- Scope::GetDerivedTypeParent (scope.cpp:453-460): the scope of the
parent type declared by this scope's introducing symbol, if any; the
resolution through the symbol's parent type specification is performed by
the external symbol/type collaborator and is modelled here as the node's
stored extension-parent index. -/
def GetDerivedTypeParent (t : ScopeTree) (i : Nat) : Option Nat :=
  (getScope t i).derivedTypeParent

/-- IsTypeParamHelper (scope.cpp:398-412): with no restriction a symbol
matches when it has type-parameter details; with a restriction the
type-parameter attribute must equal the requested flavor. -/
def isTypeParamMatch (restriction : Option TypeParamAttr) (sym : Sym) : Bool :=
  match restriction, sym.details with
  | none, .typeParamDetails _ => true
  | some a, .typeParamDetails b => b == a
  | _, _ => false

/-- IsParameterizedDerivedTypeHelper (scope.cpp:414-429), fuel-indexed:
false for a non-derived-type scope; otherwise true when the extension
parent chain reports true or some own symbol is a matching type
parameter. -/
def pdtHelperF (t : ScopeTree) (restriction : Option TypeParamAttr) :
    Nat → Nat → Bool
  | 0, _ => false
  | fuel + 1, i =>
    if IsDerivedType (getScope t i) then
      ((match (getScope t i).derivedTypeParent with
        | some p => pdtHelperF t restriction fuel p
        | none => false) ||
        (getScope t i).symbols.any fun pair => isTypeParamMatch restriction pair.2)
    else false

/-- Scope::IsParameterizedDerivedType (scope.cpp:431-433). -/
def IsParameterizedDerivedType (t : ScopeTree) (i : Nat) : Bool :=
  pdtHelperF t none (i + 1) i

/-- Scope::IsDerivedTypeWithLengthParameter (scope.cpp:434-436). -/
def IsDerivedTypeWithLengthParameter (t : ScopeTree) (i : Nat) : Bool :=
  pdtHelperF t (some .Len) (i + 1) i

/-- Scope::IsDerivedTypeWithKindParameter (scope.cpp:437-439). -/
def IsDerivedTypeWithKindParameter (t : ScopeTree) (i : Nat) : Bool :=
  pdtHelperF t (some .Kind) (i + 1) i

/-- Scope::GetDerivedTypeBase (scope.cpp:462-469), fuel-indexed:
repeatedly follow the extension parent. -/
def dtBaseF (t : ScopeTree) : Nat → Nat → Nat
  | 0, i => i
  | fuel + 1, i =>
    match (getScope t i).derivedTypeParent with
    | none => i
    | some p => dtBaseF t fuel p

def GetDerivedTypeBase (t : ScopeTree) (i : Nat) : Nat :=
  dtBaseF t (i + 1) i

/-- The extension chain of a scope: itself followed by the chain of its
extension parents. -/
def dtChainF (t : ScopeTree) : Nat → Nat → List Nat
  | 0, _ => []
  | fuel + 1, i =>
    i ::
      (match (getScope t i).derivedTypeParent with
       | some p => dtChainF t fuel p
       | none => [])

def dtChain (t : ScopeTree) (i : Nat) : List Nat :=
  dtChainF t (i + 1) i

/-- True when scope j itself declares a matching type parameter. -/
def declaresParam (t : ScopeTree) (restriction : Option TypeParamAttr)
    (j : Nat) : Bool :=
  (getScope t j).symbols.any fun pair => isTypeParamMatch restriction pair.2

lemma pdtHelperF_congr (t : ScopeTree) (hwf : wfB t = true)
    (r : Option TypeParamAttr) :
    ∀ i f f', i < f → i < f' → pdtHelperF t r f i = pdtHelperF t r f' i := by
  intro i
  induction i using Nat.strong_induction_on with
  | _ i ih =>
    intro f f' hf hf'
    match f, f' with
    | fa + 1, fb + 1 =>
      simp only [pdtHelperF]
      by_cases hdt : IsDerivedType (getScope t i)
      · rw [if_pos hdt, if_pos hdt]
        cases hp : (getScope t i).derivedTypeParent with
        | none => rfl
        | some p =>
          have hlt : p < i := wf_dtParent_lt t hwf i p hp
          exact congrArg
            (· || (getScope t i).symbols.any fun pair => isTypeParamMatch r pair.2)
            (ih p hlt fa fb (by omega) (by omega))
      · rw [if_neg hdt, if_neg hdt]

lemma dtChainF_congr (t : ScopeTree) (hwf : wfB t = true) :
    ∀ i f f', i < f → i < f' → dtChainF t f i = dtChainF t f' i := by
  intro i
  induction i using Nat.strong_induction_on with
  | _ i ih =>
    intro f f' hf hf'
    match f, f' with
    | fa + 1, fb + 1 =>
      simp only [dtChainF]
      cases hp : (getScope t i).derivedTypeParent with
      | none => rfl
      | some p =>
        have hlt : p < i := wf_dtParent_lt t hwf i p hp
        exact congrArg (i :: ·) (ih p hlt fa fb (by omega) (by omega))

lemma dtBaseF_congr (t : ScopeTree) (hwf : wfB t = true) :
    ∀ i f f', i < f → i < f' → dtBaseF t f i = dtBaseF t f' i := by
  intro i
  induction i using Nat.strong_induction_on with
  | _ i ih =>
    intro f f' hf hf'
    match f, f' with
    | fa + 1, fb + 1 =>
      simp only [dtBaseF]
      cases hp : (getScope t i).derivedTypeParent with
      | none => rfl
      | some p =>
        have hlt : p < i := wf_dtParent_lt t hwf i p hp
        exact ih p hlt fa fb (by omega) (by omega)

lemma dtChain_unfold (t : ScopeTree) (hwf : wfB t = true) (i : Nat) :
    dtChain t i =
      i ::
        (match (getScope t i).derivedTypeParent with
         | some p => dtChain t p
         | none => []) := by
  rw [dtChain]
  simp only [dtChainF]
  cases hp : (getScope t i).derivedTypeParent with
  | none => rfl
  | some p =>
    have hlt : p < i := wf_dtParent_lt t hwf i p hp
    exact congrArg (i :: ·) (dtChainF_congr t hwf p i (p + 1) (by omega) (by omega))

lemma pdtCanonical_unfold (t : ScopeTree) (hwf : wfB t = true)
    (r : Option TypeParamAttr) (i : Nat) :
    pdtHelperF t r (i + 1) i =
      (if IsDerivedType (getScope t i) then
        ((match (getScope t i).derivedTypeParent with
          | some p => pdtHelperF t r (p + 1) p
          | none => false) || declaresParam t r i)
      else false) := by
  simp only [pdtHelperF, declaresParam]
  by_cases hdt : IsDerivedType (getScope t i)
  · rw [if_pos hdt, if_pos hdt]
    cases hp : (getScope t i).derivedTypeParent with
    | none => rfl
    | some p =>
      have hlt : p < i := wf_dtParent_lt t hwf i p hp
      exact congrArg
        (· || (getScope t i).symbols.any fun pair => isTypeParamMatch r pair.2)
        (pdtHelperF_congr t hwf r p i (p + 1) (by omega) (by omega))
  · rw [if_neg hdt, if_neg hdt]

lemma pdt_iff_aux (t : ScopeTree) (hwf : wfB t = true)
    (r : Option TypeParamAttr) :
    ∀ i, (∀ j ∈ dtChain t i, IsDerivedType (getScope t j) = true) →
      (pdtHelperF t r (i + 1) i = true ↔
        ∃ j ∈ dtChain t i, declaresParam t r j = true) := by
  intro i
  induction i using Nat.strong_induction_on with
  | _ i ih =>
    intro hchain
    have hdti : IsDerivedType (getScope t i) = true := by
      apply hchain
      rw [dtChain_unfold t hwf i]
      exact List.mem_cons_self _ _
    rw [pdtCanonical_unfold t hwf r i, if_pos hdti, dtChain_unfold t hwf i]
    cases hp : (getScope t i).derivedTypeParent with
    | none =>
      simp
    | some p =>
      have hlt : p < i := wf_dtParent_lt t hwf i p hp
      have hchain' : ∀ j ∈ dtChain t p, IsDerivedType (getScope t j) = true := by
        intro j hj
        apply hchain
        rw [dtChain_unfold t hwf i, hp]
        exact List.mem_cons_of_mem _ hj
      rw [Bool.or_eq_true, ih p hlt hchain', List.exists_mem_cons_iff]
      exact or_comm

/-- Concrete extension chain for the C7 example: scope 1 is a derived
type declaring a Kind type parameter, scope 2 is a derived type extending
it with no own type parameters. -/
def exampleDT : ScopeTree :=
  [⟨.Global, 0, none, [], none, [], none, []⟩,
   ⟨.DerivedType, 0, none, [("k", ⟨5, "k", false, .typeParamDetails .Kind⟩)],
     none, [], none, []⟩,
   ⟨.DerivedType, 0, none, [], none, [], some 1, []⟩]

/-- C7: for a derived-type scope whose extension chain consists of
derived-type scopes, IsParameterizedDerivedType and its Len- and
Kind-restricted variants return true exactly when the scope or some
ancestor in its extension chain declares a type parameter of the
corresponding flavor; in particular a derived-type scope with no own type
parameters whose extension parent declares a Kind parameter reports both
IsParameterizedDerivedType and IsDerivedTypeWithKindParameter true.  The
order-independent right-hand sides show the parent-chain-first traversal
order never changes the result. -/
theorem c7_parameterized_derived_type (t : ScopeTree) (hwf : wfB t = true)
    (i : Nat)
    (hchain : ∀ j ∈ dtChain t i, IsDerivedType (getScope t j) = true) :
    (IsParameterizedDerivedType t i = true ↔
      ∃ j ∈ dtChain t i, declaresParam t none j = true) ∧
    (IsDerivedTypeWithLengthParameter t i = true ↔
      ∃ j ∈ dtChain t i, declaresParam t (some .Len) j = true) ∧
    (IsDerivedTypeWithKindParameter t i = true ↔
      ∃ j ∈ dtChain t i, declaresParam t (some .Kind) j = true) ∧
    (IsParameterizedDerivedType exampleDT 2 = true ∧
      IsDerivedTypeWithKindParameter exampleDT 2 = true) :=
  ⟨pdt_iff_aux t hwf none i hchain,
   pdt_iff_aux t hwf (some .Len) i hchain,
   pdt_iff_aux t hwf (some .Kind) i hchain,
   by decide, by decide⟩

/-- Witness for C7 on the concrete extension chain. -/
theorem c7_witness :
    IsParameterizedDerivedType exampleDT 2 = true ∧
    IsDerivedTypeWithKindParameter exampleDT 2 = true :=
  (c7_parameterized_derived_type exampleDT (by decide) 2 (by decide)).2.2.2

/-- Reachability by repeatedly following the derived-type extension
parent. -/
inductive DtReach (t : ScopeTree) : Nat → Nat → Prop
  | refl (i : Nat) : DtReach t i i
  | step {i j k : Nat} : GetDerivedTypeParent t i = some j → DtReach t j k →
      DtReach t i k

lemma dtBase_unfold (t : ScopeTree) (hwf : wfB t = true) (i : Nat) :
    GetDerivedTypeBase t i =
      (match (getScope t i).derivedTypeParent with
       | none => i
       | some p => GetDerivedTypeBase t p) := by
  rw [GetDerivedTypeBase]
  simp only [dtBaseF]
  cases hp : (getScope t i).derivedTypeParent with
  | none => rfl
  | some p =>
    have hlt : p < i := wf_dtParent_lt t hwf i p hp
    exact dtBaseF_congr t hwf p i (p + 1) (by omega) (by omega)

/-- C9: on a tree whose extension chains are finite and acyclic (the
well-formedness hypothesis), GetDerivedTypeBase terminates and returns
the root of the chain — a scope reachable from the start by repeatedly
following GetDerivedTypeParent whose own GetDerivedTypeParent is none —
and is the starting scope itself when that scope has no extension
parent. -/
theorem c9_getDerivedTypeBase (t : ScopeTree) (hwf : wfB t = true) (i : Nat) :
    DtReach t i (GetDerivedTypeBase t i) ∧
    GetDerivedTypeParent t (GetDerivedTypeBase t i) = none ∧
    (GetDerivedTypeParent t i = none → GetDerivedTypeBase t i = i) := by
  induction i using Nat.strong_induction_on with
  | _ i ih =>
    cases hp : (getScope t i).derivedTypeParent with
    | none =>
      have hbase : GetDerivedTypeBase t i = i := by
        rw [dtBase_unfold t hwf i, hp]
      refine ⟨?_, ?_, fun _ => hbase⟩
      · rw [hbase]; exact DtReach.refl i
      · rw [hbase, GetDerivedTypeParent, hp]
    | some p =>
      have hlt : p < i := wf_dtParent_lt t hwf i p hp
      have hbase : GetDerivedTypeBase t i = GetDerivedTypeBase t p := by
        rw [dtBase_unfold t hwf i, hp]
      obtain ⟨hreach, hnone, _⟩ := ih p hlt
      refine ⟨?_, ?_, ?_⟩
      · rw [hbase]
        exact DtReach.step (by rw [GetDerivedTypeParent, hp]) hreach
      · rw [hbase]; exact hnone
      · intro hcontra
        rw [GetDerivedTypeParent, hp] at hcontra
        cases hcontra

/-- Witness for C9 on the concrete extension chain. -/
theorem c9_witness :
    GetDerivedTypeParent exampleDT (GetDerivedTypeBase exampleDT 2) = none ∧
    GetDerivedTypeBase exampleDT 2 = 1 :=
  ⟨(c9_getDerivedTypeBase exampleDT (by decide) 2).2.1, by decide⟩

/-! ## Source-range tracker (scope.cpp lines 308-362; C2, C5, C10) -/

/-- Modelled from the spec: a contiguous source span, as a start offset
and a size; the identity of the owning source buffer is resolved
separately by the source-management collaborator. -/
structure Range where
  start : Nat
  size : Nat
deriving DecidableEq

def Range.isEmpty (r : Range) : Bool := r.size == 0

def Range.endp (r : Range) : Nat := r.start + r.size

/-- Modelled from the spec: the minimal interval covering both ranges
(Interval::ExtendToCover of the source-management collaborator); an empty
side is absorbed. -/
def Range.extendToCover (a b : Range) : Range :=
  if a.size = 0 then b
  else if b.size = 0 then a
  else
    { start := min a.start b.start,
      size := max a.endp b.endp - min a.start b.start }

/-- Modelled from the spec: interval containment (Interval::Contains of
the source-management collaborator). -/
def Range.containsR (a b : Range) : Bool :=
  decide (a.start ≤ b.start ∧ b.endp ≤ a.endp)

/-- The mutable state of the source-range tracker: each scope's recorded
(buffer, range) pair — the C++ fields cookedSource_ and sourceRange_,
whose emptiness the walk asserts to agree, here coupled by construction —
and the scope-by-offset index maintained through the context.  The index
is modelled from the spec as the log of re-indexing calls. -/
structure SrcState where
  ranges : List (Nat × Nat × Range)
  scopeIndex : List (Nat × Range)
deriving DecidableEq

def lookupRange (st : SrcState) (i : Nat) : Option (Nat × Range) :=
  (st.ranges.find? fun e => e.1 == i).map fun e => e.2

def setAssoc : List (Nat × Nat × Range) → Nat → Nat × Range →
    List (Nat × Nat × Range)
  | [], i, v => [(i, v)]
  | (j, w) :: rest, i, v =>
    if j == i then (i, v) :: rest else (j, w) :: setAssoc rest i v

/-- Record a scope's (buffer, range) pair and re-index the scope for
scope-by-offset lookup (context_.UpdateScopeIndex, modelled from the
spec as an append to the index log). -/
def setRange (st : SrcState) (i : Nat) (v : Nat × Range) : SrcState :=
  { ranges := setAssoc st.ranges i v, scopeIndex := (i, v.2) :: st.scopeIndex }

/-- Modelled from the spec: the source-management collaborator resolves a
range to its owning buffer, and recognizes synthesized placeholder
tokens. -/
structure SrcCtx where
  findBuffer : Range → Option Nat
  isTempName : Range → Bool

/-- The sequence of scopes processed by the upward walk of AddSourceRange
starting at scope i: stop before a top-level scope and immediately after
a submodule scope. -/
def pathF (t : ScopeTree) : Nat → Nat → List Nat
  | 0, _ => []
  | fuel + 1, i =>
    if IsTopLevel (getScope t i) then []
    else
      i ::
        (if IsSubmodule (getScope t i) then []
         else pathF t fuel (getScope t i).parent)

def walkPath (t : ScopeTree) (i : Nat) : List Nat :=
  pathF t (i + 1) i

/-- The upward walk of Scope::AddSourceRange (scope.cpp:318-361),
fuel-indexed: at each scope below the top level, adopt the range when
none is recorded, extend the recorded range when it comes from the same
buffer, and die (None) when the buffers differ; stop after a submodule
scope. -/
def addRangeWalkF (t : ScopeTree) (cooked : Nat) (src : Range) :
    Nat → Nat → SrcState → Option SrcState
  | 0, _, st => some st
  | fuel + 1, i, st =>
    if IsTopLevel (getScope t i) then some st
    else
      match lookupRange st i with
      | none =>
        let st2 := setRange st i (cooked, src)
        if IsSubmodule (getScope t i) then some st2
        else addRangeWalkF t cooked src fuel (getScope t i).parent st2
      | some (b, r) =>
        if b = cooked then
          let st2 := setRange st i (cooked, Range.extendToCover r src)
          if IsSubmodule (getScope t i) then some st2
          else addRangeWalkF t cooked src fuel (getScope t i).parent st2
        else none

/-- Scope::AddSourceRange (scope.cpp:308-362): an empty range is a
no-op; an unresolvable range is a no-op when it is a recognized
synthesized placeholder and a fatal CHECK failure (None) otherwise;
a resolved range is merged into this scope and its ancestors by the
upward walk. -/
def AddSourceRange (ctx : SrcCtx) (t : ScopeTree) (i : Nat) (src : Range)
    (st : SrcState) : Option SrcState :=
  if src.isEmpty then some st
  else
    match ctx.findBuffer src with
    | none => if ctx.isTempName src then some st else none
    | some cooked => addRangeWalkF t cooked src (i + 1) i st

/-- True when the upward walk from scope i would meet a scope whose
already-recorded range comes from a buffer other than `cooked`. -/
def hasConflict (t : ScopeTree) (st : SrcState) (i : Nat) (cooked : Nat) : Bool :=
  (walkPath t i).any fun j =>
    match lookupRange st j with
    | some (b, _) => b != cooked
    | none => false

lemma find_setAssoc (l : List (Nat × Nat × Range)) (i j : Nat) (v : Nat × Range) :
    ((setAssoc l i v).find? fun e => e.1 == j) =
      if j = i then some (i, v) else l.find? fun e => e.1 == j := by
  induction l with
  | nil =>
    by_cases hji : j = i
    · subst hji; simp [setAssoc]
    · simp [setAssoc, List.find?_cons, Ne.symm hji, hji]
  | cons e rest ih =>
    obtain ⟨k, w⟩ := e
    by_cases hki : k = i
    · subst hki
      by_cases hji : j = k
      · subst hji; simp [setAssoc]
      · simp [setAssoc, List.find?_cons, Ne.symm hji, hji]
    · by_cases hkj : k = j
      · have hji : ¬ j = i := fun h => hki (hkj.trans h)
        simp [setAssoc, hki, List.find?_cons, hkj, hji]
      · simp [setAssoc, hki, List.find?_cons, hkj, ih]

lemma lookupRange_setRange (st : SrcState) (i j : Nat) (v : Nat × Range) :
    lookupRange (setRange st i v) j =
      if j = i then some v else lookupRange st j := by
  rw [setRange, lookupRange, lookupRange]
  show ((setAssoc st.ranges i v).find? fun e => e.1 == j).map (fun e => e.2) = _
  rw [find_setAssoc]
  by_cases hji : j = i
  · simp [hji]
  · simp [hji]

/-- A merge step of the walk: adopt the new range when none is recorded,
else extend the recorded range to the minimal covering interval. -/
def mergeVal : Option (Nat × Range) → Range → Range
  | none, src => src
  | some (_, r), src => Range.extendToCover r src

lemma containsR_refl (a : Range) : Range.containsR a a = true := by
  simp [Range.containsR]

lemma containsR_trans (a b c : Range) (h1 : Range.containsR a b = true)
    (h2 : Range.containsR b c = true) : Range.containsR a c = true := by
  simp only [Range.containsR, decide_eq_true_eq, Range.endp] at h1 h2 ⊢
  omega

lemma extendToCover_nonempty (r s : Range) (h : s.size ≠ 0) :
    (Range.extendToCover r s).size ≠ 0 := by
  rw [Range.extendToCover]
  by_cases h1 : r.size = 0
  · rw [if_pos h1]; exact h
  · rw [if_neg h1, if_neg h]
    simp only [Range.endp]
    omega

lemma extendToCover_contains_src (r s : Range) (h : s.size ≠ 0) :
    Range.containsR (Range.extendToCover r s) s = true := by
  rw [Range.extendToCover]
  by_cases h1 : r.size = 0
  · rw [if_pos h1]; exact containsR_refl s
  · rw [if_neg h1, if_neg h]
    simp only [Range.containsR, decide_eq_true_eq, Range.endp]
    omega

lemma extendToCover_contains_base (r s : Range) (h : r.size ≠ 0) :
    Range.containsR (Range.extendToCover r s) r = true := by
  rw [Range.extendToCover]
  by_cases h2 : s.size = 0
  · rw [if_neg h, if_pos h2]; exact containsR_refl r
  · rw [if_neg h, if_neg h2]
    simp only [Range.containsR, decide_eq_true_eq, Range.endp]
    omega

lemma extendToCover_mono (a c s : Range) (hs : s.size ≠ 0)
    (h : Range.containsR a c = true) :
    Range.containsR (Range.extendToCover a s) (Range.extendToCover c s) = true := by
  by_cases hc : c.size = 0
  · have hcs : Range.extendToCover c s = s := by rw [Range.extendToCover, if_pos hc]
    rw [hcs]
    exact extendToCover_contains_src a s hs
  · have ha : a.size ≠ 0 := by
      simp only [Range.containsR, decide_eq_true_eq, Range.endp] at h
      omega
    simp only [Range.containsR, decide_eq_true_eq, Range.endp] at h
    rw [Range.extendToCover, Range.extendToCover, if_neg ha, if_neg hc,
      if_neg (by exact hs), if_neg (by exact hs)]
    simp only [Range.containsR, decide_eq_true_eq, Range.endp]
    omega

lemma mergeVal_nonempty (o : Option (Nat × Range)) (src : Range)
    (h : src.size ≠ 0) : (mergeVal o src).size ≠ 0 := by
  cases o with
  | none => exact h
  | some p => exact extendToCover_nonempty p.2 src h

lemma mergeVal_contains_src (o : Option (Nat × Range)) (src : Range)
    (h : src.size ≠ 0) : Range.containsR (mergeVal o src) src = true := by
  cases o with
  | none => exact containsR_refl src
  | some p => exact extendToCover_contains_src p.2 src h

/-! Path lemmas for the upward walk. -/

lemma pathF_congr (t : ScopeTree) (hwf : wfB t = true) :
    ∀ i f f', i < f → i < f' → pathF t f i = pathF t f' i := by
  intro i
  induction i using Nat.strong_induction_on with
  | _ i ih =>
    intro f f' hf hf'
    match f, f' with
    | fa + 1, fb + 1 =>
      simp only [pathF]
      by_cases htop : IsTopLevel (getScope t i)
      · rw [if_pos htop, if_pos htop]
      · rw [if_neg htop, if_neg htop]
        by_cases hsub : IsSubmodule (getScope t i)
        · rw [if_pos hsub, if_pos hsub]
        · rw [if_neg hsub, if_neg hsub]
          have hp : (getScope t i).parent < i :=
            wf_parent_lt t hwf i (by simpa using htop)
          rw [ih _ hp fa fb (by omega) (by omega)]

lemma walkPath_unfold (t : ScopeTree) (hwf : wfB t = true) (i : Nat) :
    walkPath t i =
      (if IsTopLevel (getScope t i) then []
       else
         i ::
           (if IsSubmodule (getScope t i) then []
            else walkPath t (getScope t i).parent)) := by
  rw [walkPath]
  simp only [pathF]
  by_cases htop : IsTopLevel (getScope t i)
  · rw [if_pos htop, if_pos htop]
  · rw [if_neg htop, if_neg htop]
    by_cases hsub : IsSubmodule (getScope t i)
    · rw [if_pos hsub, if_pos hsub]
    · rw [if_neg hsub, if_neg hsub]
      have hp : (getScope t i).parent < i :=
        wf_parent_lt t hwf i (by simpa using htop)
      exact congrArg (i :: ·)
        (pathF_congr t hwf (getScope t i).parent i ((getScope t i).parent + 1)
          (by omega) (by omega))

lemma pathF_le (t : ScopeTree) (hwf : wfB t = true) :
    ∀ fuel i j, j ∈ pathF t fuel i → j ≤ i := by
  intro fuel
  induction fuel with
  | zero => intro i j hj; cases hj
  | succ fuel ih =>
    intro i j hj
    simp only [pathF] at hj
    by_cases htop : IsTopLevel (getScope t i)
    · rw [if_pos htop] at hj; cases hj
    · rw [if_neg htop] at hj
      rcases List.mem_cons.mp hj with rfl | hj2
      · exact le_refl j
      · by_cases hsub : IsSubmodule (getScope t i)
        · rw [if_pos hsub] at hj2; cases hj2
        · rw [if_neg hsub] at hj2
          have hp : (getScope t i).parent < i :=
            wf_parent_lt t hwf i (by simpa using htop)
          have hle := ih (getScope t i).parent j hj2
          omega

lemma walkPath_mem_trans (t : ScopeTree) (hwf : wfB t = true) :
    ∀ E D S, D ∈ walkPath t E → S ∈ walkPath t D → S ∈ walkPath t E := by
  intro E
  induction E using Nat.strong_induction_on with
  | _ E ih =>
    intro D S hD hS
    rw [walkPath_unfold t hwf E] at hD ⊢
    by_cases htop : IsTopLevel (getScope t E)
    · rw [if_pos htop] at hD; cases hD
    · rw [if_neg htop] at hD ⊢
      rcases List.mem_cons.mp hD with rfl | hD2
      · rw [walkPath_unfold t hwf D, if_neg htop] at hS
        exact hS
      · by_cases hsub : IsSubmodule (getScope t E)
        · rw [if_pos hsub] at hD2; cases hD2
        · rw [if_neg hsub] at hD2 ⊢
          have hp : (getScope t E).parent < E :=
            wf_parent_lt t hwf E (by simpa using htop)
          exact List.mem_cons_of_mem _ (ih _ hp D S hD2 hS)

lemma walk_effect (t : ScopeTree) (hwf : wfB t = true) (cooked : Nat)
    (src : Range) :
    ∀ fuel i st st', addRangeWalkF t cooked src fuel i st = some st' →
      (∀ j, j ∉ pathF t fuel i → lookupRange st' j = lookupRange st j) ∧
      (∀ j, j ∈ pathF t fuel i →
        lookupRange st' j = some (cooked, mergeVal (lookupRange st j) src) ∧
        ∀ b r, lookupRange st j = some (b, r) → b = cooked) := by
  intro fuel
  induction fuel with
  | zero =>
    intro i st st' h
    simp only [addRangeWalkF, Option.some.injEq] at h
    subst h
    exact ⟨fun j _ => rfl, fun j hj => by cases hj⟩
  | succ fuel ih =>
    intro i st st' h
    simp only [addRangeWalkF] at h
    by_cases htop : IsTopLevel (getScope t i)
    · rw [if_pos htop] at h
      simp only [Option.some.injEq] at h
      subst h
      refine ⟨fun j _ => rfl, fun j hj => ?_⟩
      simp only [pathF, if_pos htop] at hj
      cases hj
    · rw [if_neg htop] at h
      have hplt : (getScope t i).parent < i :=
        wf_parent_lt t hwf i (by simpa using htop)
      cases hlook : lookupRange st i with
      | none =>
        rw [hlook] at h
        simp only at h
        by_cases hsub : IsSubmodule (getScope t i)
        · rw [if_pos hsub] at h
          simp only [Option.some.injEq] at h
          subst h
          refine ⟨fun j hj => ?_, fun j hj => ?_⟩
          · simp only [pathF, if_neg htop, if_pos hsub] at hj
            have hji : j ≠ i := by
              intro hcontra; exact hj (by simp [hcontra])
            rw [lookupRange_setRange, if_neg hji]
          · simp only [pathF, if_neg htop, if_pos hsub] at hj
            rcases List.mem_cons.mp hj with rfl | hj2
            · rw [lookupRange_setRange, if_pos rfl, hlook]
              exact ⟨rfl, fun b r hbr => by cases hbr⟩
            · cases hj2
        · rw [if_neg hsub] at h
          obtain ⟨hout, hin⟩ := ih (getScope t i).parent _ _ h
          have hnotin : i ∉ pathF t fuel (getScope t i).parent := by
            intro hmem
            have := pathF_le t hwf fuel (getScope t i).parent i hmem
            omega
          refine ⟨fun j hj => ?_, fun j hj => ?_⟩
          · simp only [pathF, if_neg htop, if_neg hsub, List.mem_cons, not_or] at hj
            obtain ⟨hji, hjt⟩ := hj
            rw [hout j hjt, lookupRange_setRange, if_neg hji]
          · simp only [pathF, if_neg htop, if_neg hsub] at hj
            rcases List.mem_cons.mp hj with rfl | hj2
            · rw [hout j hnotin, lookupRange_setRange, if_pos rfl, hlook]
              exact ⟨rfl, fun b r hbr => by cases hbr⟩
            · have hji : j ≠ i := by
                intro hcontra
                subst hcontra
                exact hnotin hj2
              obtain ⟨hval, hbuf⟩ := hin j hj2
              rw [lookupRange_setRange, if_neg hji] at hval hbuf
              exact ⟨hval, hbuf⟩
      | some br =>
        obtain ⟨b, r⟩ := br
        rw [hlook] at h
        simp only at h
        by_cases hb : b = cooked
        · rw [if_pos hb] at h
          subst hb
          by_cases hsub : IsSubmodule (getScope t i)
          · rw [if_pos hsub] at h
            simp only [Option.some.injEq] at h
            subst h
            refine ⟨fun j hj => ?_, fun j hj => ?_⟩
            · simp only [pathF, if_neg htop, if_pos hsub] at hj
              have hji : j ≠ i := by
                intro hcontra; exact hj (by simp [hcontra])
              rw [lookupRange_setRange, if_neg hji]
            · simp only [pathF, if_neg htop, if_pos hsub] at hj
              rcases List.mem_cons.mp hj with rfl | hj2
              · rw [lookupRange_setRange, if_pos rfl, hlook]
                exact ⟨rfl, fun b' r' hbr => by
                  cases hbr
                  rfl⟩
              · cases hj2
          · rw [if_neg hsub] at h
            obtain ⟨hout, hin⟩ := ih (getScope t i).parent _ _ h
            have hnotin : i ∉ pathF t fuel (getScope t i).parent := by
              intro hmem
              have := pathF_le t hwf fuel (getScope t i).parent i hmem
              omega
            refine ⟨fun j hj => ?_, fun j hj => ?_⟩
            · simp only [pathF, if_neg htop, if_neg hsub, List.mem_cons,
                not_or] at hj
              obtain ⟨hji, hjt⟩ := hj
              rw [hout j hjt, lookupRange_setRange, if_neg hji]
            · simp only [pathF, if_neg htop, if_neg hsub] at hj
              rcases List.mem_cons.mp hj with rfl | hj2
              · rw [hout j hnotin, lookupRange_setRange, if_pos rfl, hlook]
                exact ⟨rfl, fun b' r' hbr => by
                  cases hbr
                  rfl⟩
              · have hji : j ≠ i := by
                  intro hcontra
                  subst hcontra
                  exact hnotin hj2
                obtain ⟨hval, hbuf⟩ := hin j hj2
                rw [lookupRange_setRange, if_neg hji] at hval hbuf
                exact ⟨hval, hbuf⟩
        · rw [if_neg hb] at h
          cases h

/-- The containment invariant maintained by AddSourceRange: every
recorded range is nonempty, and whenever the upward walk from scope D
would reach scope S, a recorded range at D implies a recorded range at S
from the same buffer that contains it. -/
def RangeInv (t : ScopeTree) (st : SrcState) : Prop :=
  (∀ j b r, lookupRange st j = some (b, r) → r.size ≠ 0) ∧
  (∀ D S, S ∈ walkPath t D → ∀ bD rD, lookupRange st D = some (bD, rD) →
    ∃ rS, lookupRange st S = some (bD, rS) ∧ Range.containsR rS rD = true)

lemma rangeInv_preserved (ctx : SrcCtx) (t : ScopeTree) (hwf : wfB t = true)
    (st st' : SrcState) (i : Nat) (src : Range)
    (h : AddSourceRange ctx t i src st = some st') (hinv : RangeInv t st) :
    RangeInv t st' := by
  rw [AddSourceRange] at h
  by_cases hemp : src.isEmpty
  · rw [if_pos hemp] at h
    simp only [Option.some.injEq] at h
    subst h
    exact hinv
  · rw [if_neg hemp] at h
    have hne : src.size ≠ 0 := by simpa [Range.isEmpty] using hemp
    cases hfb : ctx.findBuffer src with
    | none =>
      rw [hfb] at h
      simp only at h
      by_cases htmp : ctx.isTempName src
      · rw [if_pos htmp] at h
        simp only [Option.some.injEq] at h
        subst h
        exact hinv
      · rw [if_neg htmp] at h
        cases h
    | some cooked =>
      rw [hfb] at h
      simp only at h
      obtain ⟨hout, hin⟩ := walk_effect t hwf cooked src (i + 1) i st st' h
      constructor
      · intro j b r hl
        by_cases hj : j ∈ pathF t (i + 1) i
        · obtain ⟨hval, _⟩ := hin j hj
          rw [hval] at hl
          cases hl
          exact mergeVal_nonempty _ src hne
        · rw [hout j hj] at hl
          exact hinv.1 j b r hl
      · intro D S hS bD rD hD
        by_cases hDp : D ∈ pathF t (i + 1) i
        · have hSp : S ∈ pathF t (i + 1) i :=
            walkPath_mem_trans t hwf i D S hDp hS
          obtain ⟨hvalD, hbufD⟩ := hin D hDp
          obtain ⟨hvalS, hbufS⟩ := hin S hSp
          rw [hvalD] at hD
          cases hD
          refine ⟨mergeVal (lookupRange st S) src, hvalS, ?_⟩
          cases holdD : lookupRange st D with
          | none =>
            simp only [mergeVal]
            exact mergeVal_contains_src _ src hne
          | some p =>
            obtain ⟨bD0, rD0⟩ := p
            obtain ⟨rS0, hS0, hcont⟩ := hinv.2 D S hS bD0 rD0 holdD
            rw [hS0]
            simp only [mergeVal]
            exact extendToCover_mono rS0 rD0 src hne hcont
        · rw [hout D hDp] at hD
          obtain ⟨rS0, hS0, hcont⟩ := hinv.2 D S hS bD rD hD
          by_cases hSp : S ∈ pathF t (i + 1) i
          · obtain ⟨hvalS, hbufS⟩ := hin S hSp
            have hbD : bD = cooked := hbufS bD rS0 hS0
            subst hbD
            refine ⟨mergeVal (lookupRange st S) src, hvalS, ?_⟩
            rw [hS0]
            simp only [mergeVal]
            have hrS0 : rS0.size ≠ 0 := hinv.1 S bD rS0 hS0
            exact containsR_trans _ _ _
              (extendToCover_contains_base rS0 src hrS0) hcont
          · refine ⟨rS0, ?_, hcont⟩
            rw [hout S hSp]
            exact hS0

/-- States reachable from the empty tracker state through successful
AddSourceRange calls. -/
inductive SrcReachable (ctx : SrcCtx) (t : ScopeTree) : SrcState → Prop
  | init : SrcReachable ctx t ⟨[], []⟩
  | step {st st' : SrcState} (i : Nat) (src : Range) :
      SrcReachable ctx t st → AddSourceRange ctx t i src st = some st' →
      SrcReachable ctx t st'

lemma srcReachable_inv (ctx : SrcCtx) (t : ScopeTree) (hwf : wfB t = true)
    {st : SrcState} (h : SrcReachable ctx t st) : RangeInv t st := by
  induction h with
  | init =>
    constructor
    · intro j b r hl
      simp [lookupRange] at hl
    · intro D S hS bD rD hD
      simp [lookupRange] at hD
  | step i src hr hstep ih =>
    exact rangeInv_preserved ctx t hwf _ _ i src hstep ih

/-- C2: in any state reachable through successful AddSourceRange calls on
a well-formed tree, for every scope S reached by the upward walk from a
descendant D (no submodule boundary strictly below S, no top-level scope
on the way), if both scopes have recorded source ranges then S's range
comes from the same buffer as D's and contains it. -/
theorem c2_range_containment (ctx : SrcCtx) (t : ScopeTree) (st : SrcState)
    (hwf : wfB t = true) (hreach : SrcReachable ctx t st) (D S bD bS : Nat)
    (rD rS : Range) (hS : S ∈ walkPath t D)
    (hD : lookupRange st D = some (bD, rD))
    (hSr : lookupRange st S = some (bS, rS)) :
    Range.containsR rS rD = true ∧ bS = bD := by
  obtain ⟨rS0, hS0, hcont⟩ :=
    (srcReachable_inv ctx t hwf hreach).2 D S hS bD rD hD
  rw [hSr] at hS0
  simp only [Option.some.injEq, Prod.mk.injEq] at hS0
  obtain ⟨hb, hr⟩ := hS0
  subst hb
  subst hr
  exact ⟨hcont, rfl⟩

/-- Context whose source manager resolves every range to buffer 7. -/
def ctxW : SrcCtx := ⟨fun _ => some 7, fun _ => false⟩

/-- The tracker state after attributing range (10,5) to scope C of the
concrete nesting: the walk records it on C, B and A and stops before the
global scope. -/
def stW : SrcState :=
  ⟨[(3, (7, ⟨10, 5⟩)), (2, (7, ⟨10, 5⟩)), (1, (7, ⟨10, 5⟩))],
   [(1, ⟨10, 5⟩), (2, ⟨10, 5⟩), (3, ⟨10, 5⟩)]⟩

/-- Witness for C2 on the concrete nesting after one attribution call. -/
theorem c2_witness :
    Range.containsR ⟨10, 5⟩ ⟨10, 5⟩ = true ∧ (7 : Nat) = 7 :=
  c2_range_containment ctxW exampleNest stW (by decide)
    (SrcReachable.step 3 ⟨10, 5⟩ SrcReachable.init (by decide))
    3 1 7 7 ⟨10, 5⟩ ⟨10, 5⟩ (by decide) (by decide) (by decide)

/-- Context whose source manager resolves no range and recognizes no
placeholder token. -/
def ctxBad : SrcCtx := ⟨fun _ => none, fun _ => false⟩

/-- C10: AddSourceRange with an empty range is a complete no-op: whatever
the source-management collaborator would answer, it returns the state —
every recorded range and buffer and the scope-by-offset index —
unchanged. -/
theorem c10_empty_range_noop (ctx : SrcCtx) (t : ScopeTree) (i : Nat)
    (src : Range) (st : SrcState) (h : src.size = 0) :
    AddSourceRange ctx t i src st = some st := by
  rw [AddSourceRange, if_pos (by simp [Range.isEmpty, h])]

/-- Witness for C10: with a collaborator that would otherwise make the
call fatal, an empty range still leaves the state untouched. -/
theorem c10_witness :
    AddSourceRange ctxBad exampleNest 2 ⟨4, 0⟩ ⟨[], []⟩ = some ⟨[], []⟩ :=
  c10_empty_range_noop ctxBad exampleNest 2 ⟨4, 0⟩ ⟨[], []⟩ rfl

/-! ## Fatality of the subsystem's operations (C5) -/

/-- Scope::AddSubmodule (scope.cpp:169-171): map emplace; returns false
without replacing the existing entry when the name is already
registered. -/
def AddSubmodule (s : ScopeNode) (name : String) (sub : Nat) :
    Bool × ScopeNode :=
  if (s.submodules.find? fun e => e.1 == name).isSome then (false, s)
  else (true, { s with submodules := (name, sub) :: s.submodules })

/-- Scope::CopySymbol (scope.cpp:125-135): try_emplace by name; on a
collision return nothing and change nothing, else insert a copy of the
symbol and return it. -/
def CopySymbol (s : ScopeNode) (sym : Sym) : Option Sym × ScopeNode :=
  match findInTable s.symbols sym.symName with
  | some _ => (none, s)
  | none => (some sym, { s with symbols := s.symbols ++ [(sym.symName, sym)] })

/-- The mutable state touched by the subsystem's operations: the scope
nodes and the source-range tracker state. -/
structure SemState where
  scopes : ScopeTree
  src : SrcState
deriving DecidableEq

inductive OpResult
  | symResult (s : Option Sym)
  | boolResult (b : Bool)
  | msgResult (m : Option String)
  | unitResult
deriving DecidableEq

/-- The fallible operations of the subsystem named by the claim: symbol
lookup, submodule registration, import-directive recording, symbol copy,
and source-range attribution. -/
inductive ScopeOp
  | findSymbolOp (i : Nat) (name : String)
  | addSubmoduleOp (i : Nat) (name : String) (sub : Nat)
  | setImportKindOp (i : Nat) (kind : ImportKind)
  | copySymbolOp (i : Nat) (sym : Sym)
  | addSourceRangeOp (i : Nat) (src : Range)
deriving DecidableEq

/-- Run one operation; None models a process abort, which only
AddSourceRange can produce — every other operation returns its sentinel,
boolean or optional result. -/
def runOp (ctx : SrcCtx) (op : ScopeOp) (st : SemState) :
    Option (OpResult × SemState) :=
  match op with
  | .findSymbolOp i name => some (.symResult (FindSymbol st.scopes i name), st)
  | .addSubmoduleOp i name sub =>
    some (.boolResult (AddSubmodule (getScope st.scopes i) name sub).1,
      ⟨st.scopes.set i (AddSubmodule (getScope st.scopes i) name sub).2,
        st.src⟩)
  | .setImportKindOp i kind =>
    some (.msgResult (SetImportKind (getScope st.scopes i) kind).1,
      ⟨st.scopes.set i (SetImportKind (getScope st.scopes i) kind).2, st.src⟩)
  | .copySymbolOp i sym =>
    some (.symResult (CopySymbol (getScope st.scopes i) sym).1,
      ⟨st.scopes.set i (CopySymbol (getScope st.scopes i) sym).2, st.src⟩)
  | .addSourceRangeOp i src =>
    match AddSourceRange ctx st.scopes i src st.src with
    | none => none
    | some src2 => some (.unitResult, ⟨st.scopes, src2⟩)

lemma walk_none_iff (t : ScopeTree) (hwf : wfB t = true) (cooked : Nat)
    (src : Range) :
    ∀ fuel i st, addRangeWalkF t cooked src fuel i st = none ↔
      ∃ j ∈ pathF t fuel i, ∃ b r, lookupRange st j = some (b, r) ∧
        b ≠ cooked := by
  intro fuel
  induction fuel with
  | zero => intro i st; simp [addRangeWalkF, pathF]
  | succ fuel ih =>
    intro i st
    simp only [addRangeWalkF]
    by_cases htop : IsTopLevel (getScope t i)
    · rw [if_pos htop]
      simp [pathF, htop]
    · rw [if_neg htop]
      have hplt : (getScope t i).parent < i :=
        wf_parent_lt t hwf i (by simpa using htop)
      cases hlook : lookupRange st i with
      | none =>
        simp only
        by_cases hsub : IsSubmodule (getScope t i)
        · rw [if_pos hsub]
          constructor
          · intro hcontra; cases hcontra
          · rintro ⟨j, hj, b, r, hbr, hbc⟩
            simp only [pathF, if_neg htop, if_pos hsub] at hj
            rcases List.mem_cons.mp hj with rfl | hj2
            · rw [hlook] at hbr; cases hbr
            · cases hj2
        · rw [if_neg hsub]
          rw [ih (getScope t i).parent (setRange st i (cooked, src))]
          constructor
          · rintro ⟨j, hj, b, r, hbr, hbc⟩
            have hjle := pathF_le t hwf fuel _ j hj
            have hji : j ≠ i := by omega
            rw [lookupRange_setRange, if_neg hji] at hbr
            refine ⟨j, ?_, b, r, hbr, hbc⟩
            simp only [pathF, if_neg htop, if_neg hsub]
            exact List.mem_cons_of_mem _ hj
          · rintro ⟨j, hj, b, r, hbr, hbc⟩
            simp only [pathF, if_neg htop, if_neg hsub] at hj
            rcases List.mem_cons.mp hj with rfl | hj2
            · rw [hlook] at hbr; cases hbr
            · have hjle := pathF_le t hwf fuel _ j hj2
              have hji : j ≠ i := by omega
              refine ⟨j, hj2, b, r, ?_, hbc⟩
              rw [lookupRange_setRange, if_neg hji]
              exact hbr
      | some br =>
        obtain ⟨b0, r0⟩ := br
        simp only
        by_cases hb : b0 = cooked
        · rw [if_pos hb]
          subst hb
          by_cases hsub : IsSubmodule (getScope t i)
          · rw [if_pos hsub]
            constructor
            · intro hcontra; cases hcontra
            · rintro ⟨j, hj, b, r, hbr, hbc⟩
              simp only [pathF, if_neg htop, if_pos hsub] at hj
              rcases List.mem_cons.mp hj with rfl | hj2
              · rw [hlook] at hbr
                simp only [Option.some.injEq, Prod.mk.injEq] at hbr
                exact absurd hbr.1.symm hbc
              · cases hj2
          · rw [if_neg hsub]
            rw [ih (getScope t i).parent
              (setRange st i (b0, Range.extendToCover r0 src))]
            constructor
            · rintro ⟨j, hj, b, r, hbr, hbc⟩
              have hjle := pathF_le t hwf fuel _ j hj
              have hji : j ≠ i := by omega
              rw [lookupRange_setRange, if_neg hji] at hbr
              refine ⟨j, ?_, b, r, hbr, hbc⟩
              simp only [pathF, if_neg htop, if_neg hsub]
              exact List.mem_cons_of_mem _ hj
            · rintro ⟨j, hj, b, r, hbr, hbc⟩
              simp only [pathF, if_neg htop, if_neg hsub] at hj
              rcases List.mem_cons.mp hj with rfl | hj2
              · rw [hlook] at hbr
                simp only [Option.some.injEq, Prod.mk.injEq] at hbr
                exact absurd hbr.1.symm hbc
              · have hjle := pathF_le t hwf fuel _ j hj2
                have hji : j ≠ i := by omega
                refine ⟨j, hj2, b, r, ?_, hbc⟩
                rw [lookupRange_setRange, if_neg hji]
                exact hbr
        · rw [if_neg hb]
          constructor
          · intro _
            refine ⟨i, ?_, b0, r0, hlook, hb⟩
            simp only [pathF, if_neg htop]
            exact List.mem_cons_self _ _
          · intro _
            rfl

lemma hasConflict_iff (t : ScopeTree) (st : SrcState) (i cooked : Nat) :
    hasConflict t st i cooked = true ↔
      ∃ j ∈ walkPath t i, ∃ b r, lookupRange st j = some (b, r) ∧
        b ≠ cooked := by
  rw [hasConflict, List.any_eq_true]
  constructor
  · rintro ⟨j, hj, hcond⟩
    cases hl : lookupRange st j with
    | none => rw [hl] at hcond; cases hcond
    | some p =>
      obtain ⟨b, r⟩ := p
      rw [hl] at hcond
      exact ⟨j, hj, b, r, hl, by simpa using hcond⟩
  · rintro ⟨j, hj, b, r, hl, hb⟩
    refine ⟨j, hj, ?_⟩
    rw [hl]
    simpa using hb

lemma addSourceRange_none_iff (ctx : SrcCtx) (t : ScopeTree) (i : Nat)
    (src : Range) (st : SrcState) (hwf : wfB t = true) :
    AddSourceRange ctx t i src st = none ↔
      src.isEmpty = false ∧
        ((ctx.findBuffer src = none ∧ ctx.isTempName src = false) ∨
          (∃ b, ctx.findBuffer src = some b ∧
            hasConflict t st i b = true)) := by
  rw [AddSourceRange]
  by_cases hemp : src.isEmpty
  · rw [if_pos hemp]
    simp [hemp]
  · rw [if_neg hemp]
    cases hfb : ctx.findBuffer src with
    | none =>
      simp only
      by_cases htmp : ctx.isTempName src
      · rw [if_pos htmp]
        simp [hemp, htmp]
      · rw [if_neg htmp]
        simp [hemp, htmp]
    | some cooked =>
      show addRangeWalkF t cooked src (i + 1) i st = none ↔ _
      rw [walk_none_iff t hwf cooked src (i + 1) i st]
      constructor
      · intro hconf
        refine ⟨by simpa using hemp, Or.inr ⟨cooked, rfl, ?_⟩⟩
        exact (hasConflict_iff t st i cooked).mpr hconf
      · rintro ⟨-, ⟨hnone, -⟩ | ⟨b, hsome, hconf⟩⟩
        · cases hnone
        · simp only [Option.some.injEq] at hsome
          subst hsome
          exact (hasConflict_iff t st i cooked).mp hconf

/-- C5 counterexample to the claim as stated: with a source manager that
resolves no buffer and recognizes no placeholder, AddSourceRange aborts
on a nonempty range although the walk meets no scope with any recorded
source range at all (the state records none), so the abort does not come
from a cross-buffer merge. -/
theorem c5_counterexample :
    AddSourceRange ctxBad exampleNest 1 ⟨0, 4⟩ ⟨[], []⟩ = none ∧
    (⟨[], []⟩ : SrcState).ranges = [] ∧
    ctxBad.findBuffer ⟨0, 4⟩ = none := by
  refine ⟨by decide, rfl, rfl⟩

/-- C5 (amended): an operation of the subsystem aborts exactly when it is
AddSourceRange on a nonempty range and either the range resolves to no
source buffer while not being a recognized placeholder token (the CHECK
on line 315), or the upward walk reaches a scope whose already-recorded
range comes from a different buffer; the other fallible operations
(symbol lookup, submodule registration, import-directive recording,
symbol copy) always return a sentinel, boolean or optional result. -/
theorem c5_sole_fatal_path (ctx : SrcCtx) (st : SemState) (op : ScopeOp)
    (hwf : wfB st.scopes = true) :
    runOp ctx op st = none ↔
      ∃ i src, op = ScopeOp.addSourceRangeOp i src ∧ src.isEmpty = false ∧
        ((ctx.findBuffer src = none ∧ ctx.isTempName src = false) ∨
          (∃ b, ctx.findBuffer src = some b ∧
            hasConflict st.scopes st.src i b = true)) := by
  cases op with
  | findSymbolOp i name => simp [runOp]
  | addSubmoduleOp i name sub => simp [runOp]
  | setImportKindOp i kind => simp [runOp]
  | copySymbolOp i sym => simp [runOp]
  | addSourceRangeOp i src =>
    simp only [runOp]
    cases hres : AddSourceRange ctx st.scopes i src st.src with
    | none =>
      simp only
      constructor
      · intro _
        obtain ⟨hemp, hdisj⟩ :=
          (addSourceRange_none_iff ctx st.scopes i src st.src hwf).mp hres
        exact ⟨i, src, rfl, hemp, hdisj⟩
      · intro _
        trivial
    | some src2 =>
      simp only
      constructor
      · intro hcontra
        cases hcontra
      · rintro ⟨i2, src3, heq, hemp, hdisj⟩
        injection heq with h1 h2
        subst h1
        subst h2
        rw [(addSourceRange_none_iff ctx st.scopes i src st.src hwf).mpr
          ⟨hemp, hdisj⟩] at hres
        cases hres

/-- Witness for C5 (amended) at a concrete aborting operation. -/
theorem c5_witness :
    runOp ctxBad (ScopeOp.addSourceRangeOp 1 ⟨0, 4⟩)
      ⟨exampleNest, ⟨[], []⟩⟩ = none :=
  (c5_sole_fatal_path ctxBad ⟨exampleNest, ⟨[], []⟩⟩
      (ScopeOp.addSourceRangeOp 1 ⟨0, 4⟩) (by decide)).mpr
    ⟨1, ⟨0, 4⟩, rfl, by decide, Or.inl ⟨rfl, rfl⟩⟩

end FlangScope
